import Mathlib

/-!
Verification of the puzzle engine of the jeu-gobot sliding-tile game
(src/src/main.tsx).  The board is a JS array of `number | null`; because the
tile-click handler can read and write out-of-range array slots, the embedding
adds an explicit `undef` value mirroring the JS `undefined` that such reads
produce, and array writes at out-of-range indices follow JS semantics
(negative indices do not change the array contents; indices past the end
extend the array).  Machine numbers used as indices are modelled as `Int`,
with `Int.tmod` for the JS remainder operator and `Int.fdiv` for
`Math.floor` of a division.
-/

namespace Gobot

/-- The four slide directions, from the `Direction` enum in main.tsx. -/
inductive Direction where
  | UP
  | DOWN
  | LEFT
  | RIGHT
deriving DecidableEq, Repr

/-- One board slot: a numbered tile, the JS `null` empty marker, or the JS
`undefined` value that out-of-range array reads produce. -/
inductive TileValue where
  | num : Nat → TileValue
  | null : TileValue
  | undef : TileValue
deriving DecidableEq, Repr

/-- `BoardLayout` from main.tsx: an ordered sequence of slot values. -/
abbrev BoardLayout := List TileValue

/-- The `GameStatus` enum from main.tsx. -/
inductive GameStatus where
  | SELECTING
  | PLAYING
  | SOLVED
  | TIME_UP
deriving DecidableEq, Repr

/-- JS array read `b[i]`: the element when `0 ≤ i < length`, `undefined`
otherwise. -/
def jsGet (b : BoardLayout) (i : Int) : TileValue :=
  if 0 ≤ i then b.getD i.toNat TileValue.undef else TileValue.undef

/-- JS array write `b[i] = v`: in range it replaces the element; past the end
it extends the array (holes read back as `undefined`); a negative index leaves
the array contents unchanged. -/
def jsSet (b : BoardLayout) (i : Int) (v : TileValue) : BoardLayout :=
  if 0 ≤ i then
    if i.toNat < b.length then b.set i.toNat v
    else b ++ List.replicate (i.toNat - b.length) TileValue.undef ++ [v]
  else b

/-- The destructuring swap `[b[i], b[j]] = [b[j], b[i]]` from main.tsx:
both right-hand sides are read first, then `b[i]` and `b[j]` are assigned. -/
def jsSwap (b : BoardLayout) (i j : Int) : BoardLayout :=
  jsSet (jsSet b i (jsGet b j)) j (jsGet b i)

/-- In-range swap of two slots, the effect of `jsSwap` on valid indices. -/
def swapNat (b : BoardLayout) (i j : Nat) : BoardLayout :=
  (b.set i (b.getD j TileValue.undef)).set j (b.getD i TileValue.undef)

/-- The solved layout built in both `shuffleBoard` (lines 231-232) and
`handleSolve` (lines 294-295): `Array.from({length: s*s}, (_, i) => i + 1)`
with the last slot overwritten by `null`. -/
def solvedBoard (s : Nat) : BoardLayout :=
  ((List.range (s * s)).map fun i => TileValue.num (i + 1)).set (s * s - 1) TileValue.null

/-- `isSolved` from main.tsx: every slot `i` up to `length - 2` holds the
number `i + 1`, and the final slot holds `null`.  On the empty array the JS
code reads index `-1` (`undefined`), which is not `null`, so the result is
`false`; `getLast?` returning `none` matches that. -/
def isSolved (b : BoardLayout) : Bool :=
  ((List.range (b.length - 1)).all fun i =>
      decide (b.getD i TileValue.undef = TileValue.num (i + 1)))
    && decide (b.getLast? = some TileValue.null)

/-- `board.indexOf(null)` from `handleTileClick`: the first slot holding the
empty marker, `none` when the JS call returns `-1`. -/
def indexOfNull : BoardLayout → Option Nat
  | [] => none
  | v :: rest =>
    if v = TileValue.null then some 0 else (indexOfNull rest).map (· + 1)

/-- The quantity `Math.abs(tileX - blankX) + Math.abs(tileY - blankY)` from
`handleTileClick`, with `tileX = tileIndex % size` (JS remainder, `Int.tmod`)
and `tileY = Math.floor(tileIndex / size)` (`Int.fdiv`); the blank index is a
valid array index so its coordinates are plain `Nat` division and modulus. -/
def clickDist (s : Nat) (tileIndex : Int) (blankIndex : Nat) : Nat :=
  (Int.tmod tileIndex s - ((blankIndex % s : Nat) : Int)).natAbs
    + (Int.fdiv tileIndex s - ((blankIndex / s : Nat) : Int)).natAbs

/-- The session state owned by the `App` component: `status`, `size`,
`board`, `moves`, `time`.  The image reference and pixel geometry are
presentational and not modelled. -/
structure Session where
  status : GameStatus
  size : Nat
  board : BoardLayout
  moves : Nat
  time : Nat
deriving DecidableEq, Repr

/-- `timeLimit` from main.tsx: `size * size * 10`. -/
def timeLimit (s : Nat) : Nat := s * s * 10

/-- `handleTileClick` from main.tsx: ignore the click unless PLAYING; locate
the empty marker (return unchanged when `indexOf` yields `-1`); if the

computed Manhattan distance is exactly 1, swap the two slots with JS array
semantics and increment the move counter, otherwise do nothing. -/
def handleTileClick (st : Session) (tileIndex : Int) : Session :=
  if st.status = GameStatus.PLAYING then
    match indexOfNull st.board with
    | none => st
    | some blankIndex =>
      if clickDist st.size tileIndex blankIndex = 1 then
        { st with board := jsSwap st.board tileIndex (blankIndex : Int),
                  moves := st.moves + 1 }
      else st
  else st

/-- `handleSolve` from main.tsx: set the board to the solved layout and the
status to SOLVED; moves and time are not touched. -/
def handleSolve (st : Session) : Session :=
  { st with board := solvedBoard st.size, status := GameStatus.SOLVED }

/-- The timer tick from the `useEffect` interval: active only while PLAYING
(the interval is cleared on leaving PLAYING); adds one second, and when the
limit is reached clamps the time to the limit and transitions to TIME_UP. -/
def timerTick (st : Session) : Session :=
  if st.status = GameStatus.PLAYING then
    if timeLimit st.size ≤ st.time + 1 then
      { st with time := timeLimit st.size, status := GameStatus.TIME_UP }
    else { st with time := st.time + 1 }
  else st

/-- The solved-check `useEffect`: while PLAYING, a solved board transitions
the status to SOLVED. -/
def checkSolved (st : Session) : Session :=
  if st.status = GameStatus.PLAYING ∧ isSolved st.board = true then
    { st with status := GameStatus.SOLVED }
  else st

/-- The list of legal directions built in the shuffle loop, in source push
order: DOWN when `y > 0`, UP when `y < s - 1`, RIGHT when `x > 0`, LEFT when
`x < s - 1`. -/
def possibleMoves (s : Nat) (x y : Int) : List Direction :=
  (if 0 < y then [Direction.DOWN] else [])
    ++ (if y < (s : Int) - 1 then [Direction.UP] else [])
    ++ (if 0 < x then [Direction.RIGHT] else [])
    ++ (if x < (s : Int) - 1 then [Direction.LEFT] else [])

/-- One iteration of the shuffle loop (lines 236-255): compute the blank
coordinates, enumerate the legal directions, pick the one at the random
index (`Math.floor(Math.random() * length)` is uniform over `0..length-1`;
the choice `c` is reduced modulo the length to model it; an empty list gives
the JS `undefined`, leaving `targetIndex = -1`), then swap blank and target
with JS array semantics. -/
def shuffleStep (s : Nat) (c : Nat) (p : BoardLayout × Int) : BoardLayout × Int :=
  let b := p.1
  let blankIndex := p.2
  let x := Int.tmod blankIndex s
  let y := Int.fdiv blankIndex s
  let pm := possibleMoves s x y
  let randomMove := pm[c % pm.length]?
  let targetIndex : Int :=
    match randomMove with
    | some Direction.UP => blankIndex + s
    | some Direction.DOWN => blankIndex - s
    | some Direction.LEFT => blankIndex + 1
    | some Direction.RIGHT => blankIndex - 1
    | none => -1
  (jsSwap b blankIndex targetIndex, targetIndex)

/-- The `for` loop of `shuffleBoard`: `n` remaining iterations, `i` the
current loop counter feeding the random stream. -/
def shuffleLoop (s : Nat) (rand : Nat → Nat) :
    Nat → Nat → BoardLayout × Int → BoardLayout × Int
  | 0, _, p => p
  | n + 1, i, p => shuffleLoop s rand n (i + 1) (shuffleStep s (rand i) p)

/-- The full random walk of `shuffleBoard`: `s * s * 10` iterations starting
from the solved layout with the blank at the last slot. -/
def shuffleWalk (s : Nat) (rand : Nat → Nat) : BoardLayout × Int :=
  shuffleLoop s rand (s * s * 10) 0 (solvedBoard s, ((s * s : Nat) : Int) - 1)

/-- `shuffleBoard` from main.tsx: run the walk; if the result happens to be
solved, retry the whole generation.  The recursion is modelled with explicit
fuel (the source recursion terminates with probability one but not on every
random stream), and each retry consumes the next `s * s * 10` entries of the
random stream. -/
def shuffleBoard (s : Nat) (rand : Nat → Nat) : Nat → Option BoardLayout
  | 0 => none
  | fuel + 1 =>
    let b := (shuffleWalk s rand).1
    if isSolved b then shuffleBoard s (fun n => rand (n + s * s * 10)) fuel
    else some b

/-- `handleGameStart` from main.tsx: store the chosen size, install a freshly
shuffled board, reset the counters and enter PLAYING.  The shuffled board is
passed explicitly; reachability ties it to `shuffleBoard`. -/
def handleGameStart (st : Session) (level : Nat) (b : BoardLayout) : Session :=
  { st with size := level, board := b, moves := 0, time := 0,
            status := GameStatus.PLAYING }

/-- `handleReset` from main.tsx: reshuffle at the current size and reset the
counters. -/
def handleReset (st : Session) (b : BoardLayout) : Session :=
  { st with board := b, moves := 0, time := 0, status := GameStatus.PLAYING }

/-- `handleNewGame` from main.tsx: back to the selection screen. -/
def handleNewGame (st : Session) : Session :=
  { st with status := GameStatus.SELECTING }

/-- The initial `useState` values of `App`: SELECTING, size 3, empty board,
zero moves and time. -/
def initSession : Session :=
  { status := GameStatus.SELECTING, size := 3, board := [], moves := 0, time := 0 }

/-- A legal slide move in the sense of the glossary: the slot `i` is at
Manhattan distance 1 from the slot `j` holding the empty marker, and the two
slot contents are exchanged. -/
def SlideStep (s : Nat) (b b' : BoardLayout) : Prop :=
  ∃ i j : Nat, i < s * s ∧ j < s * s ∧
    b.getD j TileValue.undef = TileValue.null ∧
    Nat.dist (i % s) (j % s) + Nat.dist (i / s) (j / s) = 1 ∧
    b' = swapNat b i j

/-- The session states reachable through the event handlers of `App`:
game start from the selector (sizes 3, 4, 5, board produced by
`shuffleBoard`), reset, new game, solve, tile clicks at rendered slot
indices, timer ticks, and the solved-check effect. -/
inductive Reachable : Session → Prop where
  | init : Reachable initSession
  | start (st : Session) (level : Nat) (b : BoardLayout) (rand : Nat → Nat)
      (fuel : Nat) : Reachable st → st.status = GameStatus.SELECTING →
      (level = 3 ∨ level = 4 ∨ level = 5) →
      shuffleBoard level rand fuel = some b →
      Reachable (handleGameStart st level b)
  | reset (st : Session) (b : BoardLayout) (rand : Nat → Nat) (fuel : Nat) :
      Reachable st → st.status ≠ GameStatus.SELECTING →
      shuffleBoard st.size rand fuel = some b →
      Reachable (handleReset st b)
  | newGame (st : Session) : Reachable st → st.status ≠ GameStatus.SELECTING →
      Reachable (handleNewGame st)
  | solve (st : Session) : Reachable st → st.status ≠ GameStatus.SELECTING →
      Reachable (handleSolve st)
  | click (st : Session) (ti : Nat) : Reachable st → ti < st.board.length →
      Reachable (handleTileClick st (ti : Int))
  | tick (st : Session) : Reachable st → Reachable (timerTick st)
  | checkWin (st : Session) : Reachable st → Reachable (checkSolved st)

/-- Invariant carried through the shuffle walk: the tracked blank index is a
valid slot holding `null`, the board is a permutation of the solved layout,
and the board is reachable from the solved layout by legal slide moves. -/
def WalkInv (s : Nat) (p : BoardLayout × Int) : Prop :=
  ∃ n : Nat, p.2 = (n : Int) ∧ n < s * s ∧ p.1.length = s * s ∧
    p.1.getD n TileValue.undef = TileValue.null ∧
    p.1.Perm (solvedBoard s) ∧
    Relation.ReflTransGen (SlideStep s) (solvedBoard s) p.1

/-- The board produced by `shuffleBoard 3` when every random draw is 0:
the walk sends the blank 8 → 5 → 2 and then oscillates 2 ↔ 5, ending at 2. -/
def sampleShuffled : BoardLayout :=
  [TileValue.num 1, TileValue.num 2, TileValue.null,
   TileValue.num 4, TileValue.num 5, TileValue.num 3,
   TileValue.num 7, TileValue.num 8, TileValue.num 6]

/-- The intermediate board of that walk, with the blank at slot 5: the walk
alternates between this state and `sampleShuffled` from its first step on. -/
def sampleMid : BoardLayout :=
  [TileValue.num 1, TileValue.num 2, TileValue.num 3,
   TileValue.num 4, TileValue.num 5, TileValue.null,
   TileValue.num 7, TileValue.num 8, TileValue.num 6]

/-- A session right after starting a size-3 game on `sampleShuffled`. -/
def sampleStart : Session := handleGameStart initSession 3 sampleShuffled

/-- The session after three legal clicks from `sampleStart`; its board is
`[1, 5, 2, 4, 8, 3, 7, null, 6]` with the blank at slot 7, three moves
played, still PLAYING. -/
def samplePlaying : Session :=
  handleTileClick (handleTileClick (handleTileClick sampleStart (1 : Int)) (4 : Int)) (7 : Int)

/-- A size-4 session with some progress, used to exercise `handleSolve`. -/
def sampleSolveInput : Session :=
  { status := GameStatus.PLAYING, size := 4, board := [], moves := 5, time := 7 }

/-- A freshly started size-3 session with an empty board, used to exercise
the timer in isolation. -/
def sampleTimer : Session :=
  { status := GameStatus.PLAYING, size := 3, board := [], moves := 0, time := 0 }

/-- A board with no empty marker at all. -/
def sampleNoBlank : Session :=
  { status := GameStatus.PLAYING, size := 3,
    board := [TileValue.num 1, TileValue.num 2], moves := 0, time := 0 }

/-! ### Bridging lemmas: JS index arithmetic on natural indices -/

theorem tmod_natCast (a b : Nat) : Int.tmod (a : Int) (b : Int) = ((a % b : Nat) : Int) := rfl

theorem fdiv_natCast (a b : Nat) : Int.fdiv (a : Int) (b : Int) = ((a / b : Nat) : Int) := by
  cases a with
  | zero => simp [Int.fdiv]
  | succ n => rfl

theorem natAbs_sub_natCast (a b : Nat) : ((a : Int) - (b : Int)).natAbs = Nat.dist a b := by
  simp [Nat.dist]
  omega

/-- On a valid slot index the JS Manhattan distance is the distance between
the row-major coordinates. -/
theorem clickDist_natCast (s ti bi : Nat) :
    clickDist s (ti : Int) bi =
      Nat.dist (ti % s) (bi % s) + Nat.dist (ti / s) (bi / s) := by
  unfold clickDist
  rw [tmod_natCast, fdiv_natCast, natAbs_sub_natCast, natAbs_sub_natCast]

theorem jsGet_natCast (b : BoardLayout) (i : Nat) :
    jsGet b (i : Int) = b.getD i TileValue.undef := by
  simp [jsGet]

theorem jsSet_natCast (b : BoardLayout) (i : Nat) (v : TileValue) (h : i < b.length) :
    jsSet b (i : Int) v = b.set i v := by
  simp [jsSet, h]

theorem jsSwap_natCast (b : BoardLayout) (i j : Nat)
    (hi : i < b.length) (hj : j < b.length) :
    jsSwap b (i : Int) (j : Int) = swapNat b i j := by
  unfold jsSwap swapNat
  rw [jsGet_natCast, jsGet_natCast, jsSet_natCast b i _ hi,
    jsSet_natCast _ j _ (by simpa using hj)]

/-! ### Swap lemmas -/

theorem length_swapNat (b : BoardLayout) (i j : Nat) :
    (swapNat b i j).length = b.length := by
  simp [swapNat]

theorem getElem_swapNat (b : BoardLayout) (i j k : Nat) (hk : k < b.length)
    (hk' : k < (swapNat b i j).length) :
    (swapNat b i j)[k] =
      if j = k then b.getD i TileValue.undef
      else if i = k then b.getD j TileValue.undef
      else b[k] := by
  simp only [swapNat, List.getElem_set]

theorem count_getElem_le (b : BoardLayout) (i : Nat) (h : i < b.length) (a : TileValue) :
    (if b[i] = a then 1 else 0) ≤ List.count a b := by
  split
  · next e => exact List.count_pos_iff.mpr (e ▸ List.getElem_mem h)
  · omega

theorem swapNat_perm (b : BoardLayout) (i j : Nat)
    (hi : i < b.length) (hj : j < b.length) : (swapNat b i j).Perm b := by
  rw [List.perm_iff_count]
  intro a
  have hbi := count_getElem_le b i hi a
  have hbj := count_getElem_le b j hj a
  have hswap : swapNat b i j = (b.set i b[j]).set j b[i] := by
    unfold swapNat
    rw [List.getD_eq_getElem b _ hi, List.getD_eq_getElem b _ hj]
  rw [hswap, List.count_set, List.count_set,
    List.getElem_set (by simpa using hj)]
  simp only [beq_iff_eq]
  rcases eq_or_ne i j with hij | hij
  · subst hij
    rw [if_pos rfl]
    omega
  · rw [if_neg hij]
    omega

theorem swapNat_cancel (b : BoardLayout) (i j : Nat)
    (hi : i < b.length) (hj : j < b.length) (hij : i ≠ j) :
    swapNat (swapNat b i j) j i = b := by
  have hlen : (swapNat b i j).length = b.length := length_swapNat b i j
  apply List.ext_getElem
  · simp [length_swapNat]
  intro k hk1 hk2
  have hkmid : k < (swapNat b i j).length := by rw [hlen]; exact hk2
  have hjmid : j < (swapNat b i j).length := by rw [hlen]; exact hj
  have himid : i < (swapNat b i j).length := by rw [hlen]; exact hi
  rw [getElem_swapNat (swapNat b i j) j i k hkmid hk1,
    List.getD_eq_getElem _ _ hjmid, List.getD_eq_getElem _ _ himid,
    getElem_swapNat b i j j hj hjmid, getElem_swapNat b i j i hi himid,
    List.getD_eq_getElem b _ hi, List.getD_eq_getElem b _ hj]
  by_cases e1 : i = k
  · subst e1
    simp [hij, Ne.symm hij]
  · by_cases e2 : j = k
    · subst e2
      simp [hij, Ne.symm hij, e1]
    · rw [if_neg e1, if_neg e2]
      rw [getElem_swapNat b i j k hk2 hkmid]
      rw [if_neg e2, if_neg e1]

/-! ### Lemmas about the indexOf null lookup -/

theorem indexOfNull_eq_none (b : BoardLayout) :
    indexOfNull b = none ↔ TileValue.null ∉ b := by
  induction b with
  | nil => simp [indexOfNull]
  | cons v rest ih =>
    by_cases hv : v = TileValue.null
    · simp [indexOfNull, hv]
    · simp [indexOfNull, hv, ih, Ne.symm hv]

theorem indexOfNull_some (b : BoardLayout) (i : Nat) (h : indexOfNull b = some i) :
    i < b.length ∧ b.getD i TileValue.undef = TileValue.null ∧
      ∀ j, j < i → b.getD j TileValue.undef ≠ TileValue.null := by
  induction b generalizing i with
  | nil => simp [indexOfNull] at h
  | cons v rest ih =>
    by_cases hv : v = TileValue.null
    · rw [indexOfNull, if_pos hv] at h
      obtain rfl : i = 0 := by simpa using h.symm
      simp [hv]
    · rw [indexOfNull, if_neg hv] at h
      cases hr : indexOfNull rest with
      | none => rw [hr] at h; simp at h
      | some i' =>
        rw [hr] at h
        simp at h
        obtain rfl : i = i' + 1 := h.symm
        obtain ⟨h1, h2, h3⟩ := ih i' hr
        refine ⟨by simpa using h1, by simpa using h2, ?_⟩
        intro j hj
        cases j with
        | zero => simpa using hv
        | succ j' =>
          have := h3 j' (by omega)
          simpa using this

theorem indexOfNull_unique (b : BoardLayout) (i : Nat)
    (hcount : b.count TileValue.null = 1) (hi : i < b.length)
    (hget : b.getD i TileValue.undef = TileValue.null) : indexOfNull b = some i := by
  induction b generalizing i with
  | nil => simp at hi
  | cons v rest ih =>
    by_cases hv : v = TileValue.null
    · have hrest : rest.count TileValue.null = 0 := by
        rw [List.count_cons] at hcount
        simp [hv] at hcount
        exact hcount
      have hnot : TileValue.null ∉ rest := by
        rw [← List.count_eq_zero]
        simpa using hrest
      cases i with
      | zero => simp [indexOfNull, hv]
      | succ i' =>
        exfalso
        apply hnot
        have hi' : i' < rest.length := by simpa using hi
        rw [List.getD_cons_succ, List.getD_eq_getElem rest _ hi'] at hget
        exact hget ▸ List.getElem_mem hi'
    · have hrest : rest.count TileValue.null = 1 := by
        rw [List.count_cons] at hcount
        simpa [hv] using hcount
      cases i with
      | zero => simp at hget; exact absurd hget hv
      | succ i' =>
        have hi' : i' < rest.length := by simpa using hi
        have hget' : rest.getD i' TileValue.undef = TileValue.null := by
          simpa using hget
        rw [indexOfNull, if_neg hv, ih i' hrest hi' hget']
        rfl

/-! ### Lemmas about the solved layout -/

theorem length_solvedBoard (s : Nat) : (solvedBoard s).length = s * s := by
  simp [solvedBoard]

theorem getElem_solvedBoard (s i : Nat)
    (h' : i < (solvedBoard s).length) :
    (solvedBoard s)[i] =
      if s * s - 1 = i then TileValue.null else TileValue.num (i + 1) := by
  unfold solvedBoard
  rw [List.getElem_set]
  by_cases he : s * s - 1 = i
  · rw [if_pos he, if_pos he]
  · rw [if_neg he, if_neg he, List.getElem_map, List.getElem_range]

theorem isSolved_true_iff (b : BoardLayout) :
    isSolved b = true ↔
      (∀ i, i < b.length - 1 → b.getD i TileValue.undef = TileValue.num (i + 1))
        ∧ b.getLast? = some TileValue.null := by
  unfold isSolved
  simp [List.all_eq_true, List.mem_range]

theorem isSolved_solvedBoard (s : Nat) (hs : 0 < s) :
    isSolved (solvedBoard s) = true := by
  have hss : 0 < s * s := Nat.mul_pos hs hs
  rw [isSolved_true_iff]
  constructor
  · intro i hi
    rw [length_solvedBoard] at hi
    have h1 : i < s * s := by omega
    have h2 : i < (solvedBoard s).length := by rw [length_solvedBoard]; omega
    rw [List.getD_eq_getElem _ _ h2, getElem_solvedBoard s i h2,
      if_neg (by omega)]
  · have h1 : s * s - 1 < (solvedBoard s).length := by rw [length_solvedBoard]; omega
    rw [List.getLast?_eq_getElem?, length_solvedBoard,
      List.getElem?_eq_getElem h1, getElem_solvedBoard s _ h1,
      if_pos rfl]

theorem eq_solvedBoard_of_isSolved (s : Nat) (b : BoardLayout) (hs : 0 < s)
    (hlen : b.length = s * s) (h : isSolved b = true) : b = solvedBoard s := by
  have hss : 0 < s * s := Nat.mul_pos hs hs
  rw [isSolved_true_iff] at h
  obtain ⟨h1, h2⟩ := h
  apply List.ext_getElem
  · rw [hlen, length_solvedBoard]
  intro k hk1 hk2
  have hk : k < s * s := by rwa [hlen] at hk1
  rw [getElem_solvedBoard s k hk2]
  by_cases he : s * s - 1 = k
  · rw [if_pos he]
    rw [List.getLast?_eq_getElem?] at h2
    have hl : b.length - 1 < b.length := by omega
    rw [List.getElem?_eq_getElem hl] at h2
    have hke : k = b.length - 1 := by omega
    have : b[k]? = some TileValue.null := by
      rw [show k = b.length - 1 from hke, List.getElem?_eq_getElem hl]
      exact h2
    rw [List.getElem?_eq_getElem hk1] at this
    exact Option.some.inj this
  · rw [if_neg he]
    have := h1 k (by omega)
    rwa [List.getD_eq_getElem _ _ hk1] at this

/-! ### Row-major coordinate arithmetic and the shuffle step -/

theorem divmod_char (s q r : Nat) (hs : 0 < s) (hr : r < s) :
    (s * q + r) / s = q ∧ (s * q + r) % s = r := by
  constructor
  · rw [Nat.mul_add_div hs, Nat.div_eq_of_lt hr]
    omega
  · rw [Nat.mul_add_mod, Nat.mod_eq_of_lt hr]


theorem mem_possibleMoves (s : Nat) (x y : Int) (d : Direction) :
    d ∈ possibleMoves s x y ↔
      (d = Direction.DOWN ∧ 0 < y) ∨ (d = Direction.UP ∧ y < (s : Int) - 1)
        ∨ (d = Direction.RIGHT ∧ 0 < x)
        ∨ (d = Direction.LEFT ∧ x < (s : Int) - 1) := by
  unfold possibleMoves
  split_ifs <;> cases d <;> simp_all

theorem getElem?_mod_of_mem {α : Type} (l : List α) (d : α) (hd : d ∈ l) :
    ∃ c : Nat, l[c % l.length]? = some d := by
  obtain ⟨⟨i, hi⟩, rfl⟩ := List.mem_iff_get.mp hd
  exact ⟨i, by rw [Nat.mod_eq_of_lt hi, List.getElem?_eq_getElem hi]; rfl⟩

theorem natCast_lt_sub_one (a s : Nat) : ((a : Int) < (s : Int) - 1) ↔ a < s - 1 := by
  omega

/-- The natural coordinates of the blank slot satisfy the side conditions the
loop tests in `Int` form. -/
theorem possibleMoves_nat (s n : Nat) (d : Direction) :
    d ∈ possibleMoves s ((n % s : Nat) : Int) ((n / s : Nat) : Int) ↔
      (d = Direction.DOWN ∧ 0 < n / s) ∨ (d = Direction.UP ∧ n / s < s - 1)
        ∨ (d = Direction.RIGHT ∧ 0 < n % s)
        ∨ (d = Direction.LEFT ∧ n % s < s - 1) := by
  rw [mem_possibleMoves]
  rw [natCast_lt_sub_one (n / s) s, natCast_lt_sub_one (n % s) s,
    Int.natCast_pos, Int.natCast_pos]

/-- Characterization of one shuffle iteration on a valid blank index: some
target slot at Manhattan distance one is selected, in bounds, and the two
slots are exchanged.  The final disjunction records which direction condition
justified the selected target. -/
theorem shuffleStep_char (s c : Nat) (b : BoardLayout) (n : Nat) (hs : 2 ≤ s)
    (hn : n < s * s) (hlen : b.length = s * s) :
    ∃ t : Nat, t < s * s ∧
      shuffleStep s c (b, (n : Int)) = (swapNat b n t, (t : Int)) ∧
      Nat.dist (t % s) (n % s) + Nat.dist (t / s) (n / s) = 1 ∧
      ((t + s = n ∧ 0 < n / s) ∨ (t = n + s ∧ n / s < s - 1)
        ∨ (t + 1 = n ∧ 0 < n % s) ∨ (t = n + 1 ∧ n % s < s - 1)) := by
  have hs0 : 0 < s := by omega
  have hq_lt : n / s < s := Nat.div_lt_of_lt_mul hn
  have hr_lt : n % s < s := Nat.mod_lt _ hs0
  have hqr : s * (n / s) + n % s = n := Nat.div_add_mod n s
  set pm := possibleMoves s ((n % s : Nat) : Int) ((n / s : Nat) : Int) with hpm
  have hne : pm ≠ [] := by
    rcases Nat.eq_zero_or_pos (n / s) with hq0 | hq0
    · exact List.ne_nil_of_mem ((possibleMoves_nat s n Direction.UP).mpr
        (Or.inr (Or.inl ⟨rfl, by omega⟩)))
    · exact List.ne_nil_of_mem ((possibleMoves_nat s n Direction.DOWN).mpr
        (Or.inl ⟨rfl, hq0⟩))
  have hlenpm : 0 < pm.length := List.length_pos.mpr hne
  have hcm : c % pm.length < pm.length := Nat.mod_lt _ hlenpm
  have hsel : pm[c % pm.length]? = some (pm[c % pm.length]) :=
    List.getElem?_eq_getElem hcm
  have hdm : pm[c % pm.length] ∈ pm := List.getElem_mem hcm
  generalize hd : pm[c % pm.length] = d at hsel hdm
  have hstep : shuffleStep s c (b, (n : Int)) =
      (jsSwap b (n : Int)
        (match (pm[c % pm.length]? : Option Direction) with
          | some Direction.UP => (n : Int) + s
          | some Direction.DOWN => (n : Int) - s
          | some Direction.LEFT => (n : Int) + 1
          | some Direction.RIGHT => (n : Int) - 1
          | none => -1),
        (match (pm[c % pm.length]? : Option Direction) with
          | some Direction.UP => (n : Int) + s
          | some Direction.DOWN => (n : Int) - s
          | some Direction.LEFT => (n : Int) + 1
          | some Direction.RIGHT => (n : Int) - 1
          | none => -1)) := by
    simp only [shuffleStep, tmod_natCast, fdiv_natCast, hpm]
  rw [hsel] at hstep
  have hdm' := (possibleMoves_nat s n d).mp hdm
  cases d with
  | DOWN =>
    have hq0 : 0 < n / s := by
      rcases hdm' with ⟨_, h⟩ | ⟨h, _⟩ | ⟨h, _⟩ | ⟨h, _⟩ <;> first | exact h | cases h
    obtain ⟨q', hq'⟩ : ∃ q', n / s = q' + 1 := ⟨n / s - 1, by omega⟩
    have hmul : s * (n / s) = s * q' + s := by rw [hq', Nat.mul_succ]
    have hsn : s ≤ n := by omega
    have hstep' : shuffleStep s c (b, (n : Int)) =
        (jsSwap b (n : Int) ((n : Int) - s), (n : Int) - s) := hstep
    refine ⟨n - s, by omega, ?_, ?_, Or.inl ⟨by omega, hq0⟩⟩
    · rw [hstep']
      have hcast : (n : Int) - s = ((n - s : Nat) : Int) := by omega
      rw [hcast, jsSwap_natCast b n (n - s) (by omega) (by omega)]
    · have hts : n - s = s * q' + n % s := by omega
      have hchar := divmod_char s q' (n % s) hs0 hr_lt
      rw [hts, hchar.1, hchar.2, hq']
      simp [Nat.dist]
  | UP =>
    have hq0 : n / s < s - 1 := by
      rcases hdm' with ⟨h, _⟩ | ⟨_, h⟩ | ⟨h, _⟩ | ⟨h, _⟩ <;> first | exact h | cases h
    have hmul : s * (n / s + 1) = s * (n / s) + s := Nat.mul_succ s (n / s)
    have hmul2 : s * (n / s + 1) ≤ s * (s - 1) :=
      Nat.mul_le_mul_left s (by omega)
    have hmul3 : s * (s - 1) + s = s * s := by
      rw [← Nat.mul_succ]
      congr 1
      omega
    have hstep' : shuffleStep s c (b, (n : Int)) =
        (jsSwap b (n : Int) ((n : Int) + s), (n : Int) + s) := hstep
    refine ⟨n + s, by omega, ?_, ?_, Or.inr (Or.inl ⟨rfl, hq0⟩)⟩
    · rw [hstep']
      have hcast : (n : Int) + s = ((n + s : Nat) : Int) := by omega
      rw [hcast, jsSwap_natCast b n (n + s) (by omega) (by omega)]
    · have hts : n + s = s * (n / s + 1) + n % s := by omega
      have hchar := divmod_char s (n / s + 1) (n % s) hs0 hr_lt
      rw [hts, hchar.1, hchar.2]
      simp [Nat.dist]
  | RIGHT =>
    have hr0 : 0 < n % s := by
      rcases hdm' with ⟨h, _⟩ | ⟨h, _⟩ | ⟨_, h⟩ | ⟨h, _⟩ <;> first | exact h | cases h
    have hstep' : shuffleStep s c (b, (n : Int)) =
        (jsSwap b (n : Int) ((n : Int) - 1), (n : Int) - 1) := hstep
    refine ⟨n - 1, by omega, ?_, ?_, Or.inr (Or.inr (Or.inl ⟨by omega, hr0⟩))⟩
    · rw [hstep']
      have hcast : (n : Int) - 1 = ((n - 1 : Nat) : Int) := by omega
      rw [hcast, jsSwap_natCast b n (n - 1) (by omega) (by omega)]
    · have hts : n - 1 = s * (n / s) + (n % s - 1) := by omega
      have hchar := divmod_char s (n / s) (n % s - 1) hs0 (by omega)
      rw [hts, hchar.1, hchar.2]
      simp [Nat.dist]
      omega
  | LEFT =>
    have hr0 : n % s < s - 1 := by
      rcases hdm' with ⟨h, _⟩ | ⟨h, _⟩ | ⟨h, _⟩ | ⟨_, h⟩ <;> first | exact h | cases h
    have hmul2 : s * (n / s) ≤ s * (s - 1) :=
      Nat.mul_le_mul_left s (by omega)
    have hmul3 : s * (s - 1) + s = s * s := by
      rw [← Nat.mul_succ]
      congr 1
      omega
    have hstep' : shuffleStep s c (b, (n : Int)) =
        (jsSwap b (n : Int) ((n : Int) + 1), (n : Int) + 1) := hstep
    refine ⟨n + 1, by omega, ?_, ?_, Or.inr (Or.inr (Or.inr ⟨rfl, hr0⟩))⟩
    · rw [hstep']
      have hcast : (n : Int) + 1 = ((n + 1 : Nat) : Int) := by omega
      rw [hcast, jsSwap_natCast b n (n + 1) (by omega) (by omega)]
    · have hts : n + 1 = s * (n / s) + (n % s + 1) := by omega
      have hchar := divmod_char s (n / s) (n % s + 1) hs0 (by omega)
      rw [hts, hchar.1, hchar.2]
      simp [Nat.dist]

/-! ### The shuffle walk invariant -/

theorem swapNat_comm (b : BoardLayout) (i j : Nat) (hij : i ≠ j) :
    swapNat b i j = swapNat b j i := by
  unfold swapNat
  rw [List.set_comm _ _ _ hij]

theorem shuffleStep_inv (s c : Nat) (hs : 2 ≤ s) (p : BoardLayout × Int)
    (h : WalkInv s p) : WalkInv s (shuffleStep s c p) := by
  obtain ⟨b, bi⟩ := p
  obtain ⟨n, hp2, hn, hlen, hnull, hperm, hreach⟩ := h
  simp only at hp2 hlen hnull hperm hreach
  subst hp2
  obtain ⟨t, ht, hstep, hdist, _⟩ := shuffleStep_char s c b n hs hn hlen
  have htn : t ≠ n := by
    intro he
    rw [he, Nat.dist_self, Nat.dist_self] at hdist
    omega
  have hnb : n < b.length := by omega
  have htb : t < b.length := by omega
  refine ⟨t, by rw [hstep], ht, ?_, ?_, ?_, ?_⟩
  · rw [hstep]
    simp [length_swapNat, hlen]
  · rw [hstep]
    simp only
    have ht' : t < (swapNat b n t).length := by rw [length_swapNat]; exact htb
    rw [List.getD_eq_getElem _ _ ht', getElem_swapNat b n t t htb ht',
      if_pos rfl]
    exact hnull
  · rw [hstep]
    simp only
    exact (swapNat_perm b n t hnb htb).trans hperm
  · rw [hstep]
    simp only
    refine hreach.tail ⟨t, n, ht, hn, hnull, hdist, ?_⟩
    rw [swapNat_comm b t n htn]

theorem shuffleLoop_inv (s : Nat) (rand : Nat → Nat) (hs : 2 ≤ s) :
    ∀ (m i : Nat) (p : BoardLayout × Int),
      WalkInv s p → WalkInv s (shuffleLoop s rand m i p) := by
  intro m
  induction m with
  | zero => intro i p h; exact h
  | succ m ih =>
    intro i p h
    exact ih (i + 1) _ (shuffleStep_inv s (rand i) hs p h)

theorem walkInv_start (s : Nat) (hs : 2 ≤ s) :
    WalkInv s (solvedBoard s, ((s * s : Nat) : Int) - 1) := by
  have hss : 0 < s * s := Nat.mul_pos (by omega) (by omega)
  have hlast : s * s - 1 < (solvedBoard s).length := by
    rw [length_solvedBoard]; omega
  refine ⟨s * s - 1, by simp only; omega, by omega, length_solvedBoard s, ?_,
    List.Perm.refl _, Relation.ReflTransGen.refl⟩
  rw [List.getD_eq_getElem _ _ hlast, getElem_solvedBoard s _ hlast, if_pos rfl]

theorem shuffleWalk_inv (s : Nat) (rand : Nat → Nat) (hs : 2 ≤ s) :
    WalkInv s (shuffleWalk s rand) :=
  shuffleLoop_inv s rand hs (s * s * 10) 0 _ (walkInv_start s hs)

/-- Any board returned by `shuffleBoard` is a permutation of the solved
layout, fails the solved test, and is reachable from the solved layout by
legal slide moves. -/
theorem shuffleBoard_some (s : Nat) (rand : Nat → Nat) (fuel : Nat)
    (b : BoardLayout) (hs : 2 ≤ s) (h : shuffleBoard s rand fuel = some b) :
    b.Perm (solvedBoard s) ∧ isSolved b = false ∧
      Relation.ReflTransGen (SlideStep s) (solvedBoard s) b := by
  induction fuel generalizing rand with
  | zero => simp [shuffleBoard] at h
  | succ fuel ih =>
    rw [shuffleBoard] at h
    by_cases hsol : isSolved (shuffleWalk s rand).1
    · rw [if_pos hsol] at h
      exact ih _ h
    · rw [if_neg hsol] at h
      obtain rfl : (shuffleWalk s rand).1 = b := Option.some.inj h
      obtain ⟨n, _, _, _, _, hperm, hreach⟩ := shuffleWalk_inv s rand hs
      exact ⟨hperm, Bool.not_eq_true _ ▸ hsol, hreach⟩

/-! ### Reduction lemmas for the tile-click handler -/

theorem handleTileClick_not_playing (st : Session) (ti : Int)
    (h : st.status ≠ GameStatus.PLAYING) : handleTileClick st ti = st := by
  unfold handleTileClick
  rw [if_neg h]

theorem handleTileClick_no_null (st : Session) (ti : Int)
    (h : indexOfNull st.board = none) : handleTileClick st ti = st := by
  unfold handleTileClick
  by_cases hst : st.status = GameStatus.PLAYING
  · rw [if_pos hst, h]
  · rw [if_neg hst]

theorem handleTileClick_not_adjacent (st : Session) (ti : Int) (bi : Nat)
    (hb : indexOfNull st.board = some bi)
    (hd : clickDist st.size ti bi ≠ 1) : handleTileClick st ti = st := by
  unfold handleTileClick
  by_cases hst : st.status = GameStatus.PLAYING
  · rw [if_pos hst, hb]
    simp only
    rw [if_neg hd]
  · rw [if_neg hst]

theorem handleTileClick_adjacent (st : Session) (ti : Int) (bi : Nat)
    (hst : st.status = GameStatus.PLAYING)
    (hb : indexOfNull st.board = some bi)
    (hd : clickDist st.size ti bi = 1) :
    handleTileClick st ti =
      { st with board := jsSwap st.board ti (bi : Int),
                moves := st.moves + 1 } := by
  unfold handleTileClick
  rw [if_pos hst, hb]
  simp only
  rw [if_pos hd]

theorem handleTileClick_frame (st : Session) (ti : Int) :
    (handleTileClick st ti).status = st.status ∧
      (handleTileClick st ti).size = st.size ∧
      (handleTileClick st ti).time = st.time := by
  unfold handleTileClick
  split
  · split
    · exact ⟨rfl, rfl, rfl⟩
    · split
      · exact ⟨rfl, rfl, rfl⟩
      · exact ⟨rfl, rfl, rfl⟩
  · exact ⟨rfl, rfl, rfl⟩

/-! ### Timer lemmas -/

theorem timerTick_not_playing (st : Session)
    (h : st.status ≠ GameStatus.PLAYING) : timerTick st = st := by
  unfold timerTick
  rw [if_neg h]

theorem timerTick_iterate_lt (st : Session) (hst : st.status = GameStatus.PLAYING)
    (h0 : st.time = 0) :
    ∀ n, n < timeLimit st.size → timerTick^[n] st = { st with time := n } := by
  intro n
  induction n with
  | zero =>
    intro _
    rw [Function.iterate_zero_apply, ← h0]
  | succ n ih =>
    intro hn
    rw [Function.iterate_succ_apply', ih (by omega)]
    unfold timerTick
    rw [if_pos hst, if_neg (by simp only; omega)]

theorem timerTick_iterate_limit (st : Session) (hst : st.status = GameStatus.PLAYING)
    (h0 : st.time = 0) (hpos : 0 < timeLimit st.size) :
    timerTick^[timeLimit st.size] st =
      { st with time := timeLimit st.size, status := GameStatus.TIME_UP } := by
  obtain ⟨m, hm⟩ : ∃ m, timeLimit st.size = m + 1 := ⟨timeLimit st.size - 1, by omega⟩
  rw [hm, Function.iterate_succ_apply',
    timerTick_iterate_lt st hst h0 m (by omega)]
  unfold timerTick
  rw [if_pos hst, if_pos (by simp only; omega)]
  simp only
  rw [← hm]

/-- Elapsed time never exceeds the limit in any reachable session state. -/
theorem reachable_time_le (st : Session) (h : Reachable st) :
    st.time ≤ timeLimit st.size := by
  induction h with
  | init => simp [initSession, timeLimit]
  | start st level b rand fuel _ _ _ _ _ => simp [handleGameStart]
  | reset st b rand fuel _ _ _ _ => simp [handleReset]
  | newGame st _ _ ih => simpa [handleNewGame] using ih
  | solve st _ _ ih => simpa [handleSolve] using ih
  | click st ti _ _ ih =>
    obtain ⟨_, h2, h3⟩ := handleTileClick_frame st (ti : Int)
    rw [h2, h3]
    exact ih
  | tick st _ ih =>
    unfold timerTick
    split
    · split
      · simp only
        omega
      · next hlim =>
        simp only at hlim ⊢
        omega
    · exact ih
  | checkWin st _ ih =>
    unfold checkSolved
    split
    · simpa using ih
    · exact ih

/-! ### Every adjacent slot is reachable by some random choice -/

theorem adj_cases (s n u : Nat) (hs : 0 < s) (hn : n < s * s) (hu : u < s * s)
    (h : Nat.dist (u % s) (n % s) + Nat.dist (u / s) (n / s) = 1) :
    (u + s = n ∧ 0 < n / s) ∨ (u = n + s ∧ n / s < s - 1)
      ∨ (u + 1 = n ∧ 0 < n % s) ∨ (u = n + 1 ∧ n % s < s - 1) := by
  have hqr_n : s * (n / s) + n % s = n := Nat.div_add_mod n s
  have hqr_u : s * (u / s) + u % s = u := Nat.div_add_mod u s
  have hrn : n % s < s := Nat.mod_lt _ hs
  have hru : u % s < s := Nat.mod_lt _ hs
  have hdn : n / s < s := Nat.div_lt_of_lt_mul hn
  have hdu : u / s < s := Nat.div_lt_of_lt_mul hu
  simp only [Nat.dist] at h
  obtain ⟨qn, hA⟩ : ∃ q, q = n / s := ⟨_, rfl⟩
  rw [← hA] at h hqr_n hdn ⊢
  clear hA
  obtain ⟨rn, hB⟩ : ∃ r, r = n % s := ⟨_, rfl⟩
  rw [← hB] at h hqr_n hrn ⊢
  clear hB
  obtain ⟨qu, hC⟩ : ∃ q, q = u / s := ⟨_, rfl⟩
  rw [← hC] at h hqr_u hdu
  clear hC
  obtain ⟨ru, hD⟩ : ∃ r, r = u % s := ⟨_, rfl⟩
  rw [← hD] at h hqr_u hru
  clear hD
  by_cases hdiv : qu = qn
  · subst hdiv
    omega
  · have h1 : ru = rn := by omega
    rcases Nat.lt_or_ge qu qn with hlt | hge
    · have he : qn = qu + 1 := by omega
      have hm : s * qn = s * qu + s := by rw [he, Nat.mul_succ]
      omega
    · have he : qu = qn + 1 := by omega
      have hm : s * qu = s * qn + s := by rw [he, Nat.mul_succ]
      omega

theorem shuffleStep_snd_of_sel (s c : Nat) (b : BoardLayout) (n : Nat) (d : Direction)
    (hsel : (possibleMoves s ((n % s : Nat) : Int) ((n / s : Nat) : Int))[c %
        (possibleMoves s ((n % s : Nat) : Int) ((n / s : Nat) : Int)).length]? = some d) :
    (shuffleStep s c (b, (n : Int))).2 =
      match d with
      | Direction.UP => (n : Int) + s
      | Direction.DOWN => (n : Int) - s
      | Direction.LEFT => (n : Int) + 1
      | Direction.RIGHT => (n : Int) - 1 := by
  have hstep : shuffleStep s c (b, (n : Int)) =
      (jsSwap b (n : Int)
        (match ((possibleMoves s ((n % s : Nat) : Int) ((n / s : Nat) : Int))[c %
            (possibleMoves s ((n % s : Nat) : Int) ((n / s : Nat) : Int)).length]? :
            Option Direction) with
          | some Direction.UP => (n : Int) + s
          | some Direction.DOWN => (n : Int) - s
          | some Direction.LEFT => (n : Int) + 1
          | some Direction.RIGHT => (n : Int) - 1
          | none => -1),
        (match ((possibleMoves s ((n % s : Nat) : Int) ((n / s : Nat) : Int))[c %
            (possibleMoves s ((n % s : Nat) : Int) ((n / s : Nat) : Int)).length]? :
            Option Direction) with
          | some Direction.UP => (n : Int) + s
          | some Direction.DOWN => (n : Int) - s
          | some Direction.LEFT => (n : Int) + 1
          | some Direction.RIGHT => (n : Int) - 1
          | none => -1)) := by
    simp only [shuffleStep, tmod_natCast, fdiv_natCast]
  rw [hsel] at hstep
  rw [hstep]
  cases d <;> rfl

theorem shuffleStep_surj (s : Nat) (b : BoardLayout) (n u : Nat) (hs : 2 ≤ s)
    (hn : n < s * s) (hu : u < s * s)
    (hadj : Nat.dist (u % s) (n % s) + Nat.dist (u / s) (n / s) = 1) :
    ∃ c, (shuffleStep s c (b, (n : Int))).2 = (u : Int) := by
  rcases adj_cases s n u (by omega) hn hu hadj with
    ⟨he, hc⟩ | ⟨he, hc⟩ | ⟨he, hc⟩ | ⟨he, hc⟩
  · obtain ⟨c, hsel⟩ := getElem?_mod_of_mem _ Direction.DOWN
      ((possibleMoves_nat s n Direction.DOWN).mpr (Or.inl ⟨rfl, hc⟩))
    refine ⟨c, ?_⟩
    rw [shuffleStep_snd_of_sel s c b n Direction.DOWN hsel]
    show (n : Int) - s = (u : Int)
    omega
  · obtain ⟨c, hsel⟩ := getElem?_mod_of_mem _ Direction.UP
      ((possibleMoves_nat s n Direction.UP).mpr (Or.inr (Or.inl ⟨rfl, hc⟩)))
    refine ⟨c, ?_⟩
    rw [shuffleStep_snd_of_sel s c b n Direction.UP hsel]
    show (n : Int) + s = (u : Int)
    omega
  · obtain ⟨c, hsel⟩ := getElem?_mod_of_mem _ Direction.RIGHT
      ((possibleMoves_nat s n Direction.RIGHT).mpr (Or.inr (Or.inr (Or.inl ⟨rfl, hc⟩))))
    refine ⟨c, ?_⟩
    rw [shuffleStep_snd_of_sel s c b n Direction.RIGHT hsel]
    show (n : Int) - 1 = (u : Int)
    omega
  · obtain ⟨c, hsel⟩ := getElem?_mod_of_mem _ Direction.LEFT
      ((possibleMoves_nat s n Direction.LEFT).mpr (Or.inr (Or.inr (Or.inr ⟨rfl, hc⟩))))
    refine ⟨c, ?_⟩
    rw [shuffleStep_snd_of_sel s c b n Direction.LEFT hsel]
    show (n : Int) + 1 = (u : Int)
    omega

/-! ### Undoing a legal click -/

theorem indexOfNull_swapNat (b : BoardLayout) (ti bi : Nat)
    (hcount : b.count TileValue.null = 1) (hti : ti < b.length)
    (hbi : bi < b.length) (hne : ti ≠ bi)
    (hnull : b.getD bi TileValue.undef = TileValue.null) :
    indexOfNull (swapNat b ti bi) = some ti := by
  have hlen : (swapNat b ti bi).length = b.length := length_swapNat b ti bi
  apply indexOfNull_unique
  · rw [((swapNat_perm b ti bi hti hbi).count_eq TileValue.null)]
    exact hcount
  · rw [hlen]; exact hti
  · have hti' : ti < (swapNat b ti bi).length := by rw [hlen]; exact hti
    rw [List.getD_eq_getElem _ _ hti', getElem_swapNat b ti bi ti hti hti',
      if_neg (Ne.symm hne), if_pos rfl]
    exact hnull

theorem tileClick_undo_aux (st : Session) (ti bi : Nat)
    (hst : st.status = GameStatus.PLAYING)
    (hb : indexOfNull st.board = some bi)
    (hcount : st.board.count TileValue.null = 1)
    (hlen : st.board.length = st.size * st.size)
    (hti : ti < st.size * st.size)
    (hadj : clickDist st.size (ti : Int) bi = 1) :
    (handleTileClick (handleTileClick st (ti : Int)) (bi : Int)).board = st.board := by
  obtain ⟨hbi, hbnull, _⟩ := indexOfNull_some _ _ hb
  have htib : ti < st.board.length := by omega
  have htne : ti ≠ bi := by
    intro he
    rw [clickDist_natCast, he] at hadj
    simp [Nat.dist_self] at hadj
  have h1 := handleTileClick_adjacent st (ti : Int) bi hst hb hadj
  have hb1 : (handleTileClick st (ti : Int)).board = swapNat st.board ti bi := by
    rw [h1]
    exact jsSwap_natCast st.board ti bi htib hbi
  have hst1 : (handleTileClick st (ti : Int)).status = GameStatus.PLAYING := by
    rw [h1]; exact hst
  have hsize1 : (handleTileClick st (ti : Int)).size = st.size := by rw [h1]
  have hfound : indexOfNull (handleTileClick st (ti : Int)).board = some ti := by
    rw [hb1]
    exact indexOfNull_swapNat st.board ti bi hcount htib hbi htne hbnull
  have hadj2 : clickDist (handleTileClick st (ti : Int)).size ((bi : Nat) : Int) ti = 1 := by
    rw [hsize1, clickDist_natCast]
    rw [clickDist_natCast] at hadj
    rw [Nat.dist_comm (bi % st.size) (ti % st.size),
      Nat.dist_comm (bi / st.size) (ti / st.size)]
    exact hadj
  have h2 := handleTileClick_adjacent (handleTileClick st (ti : Int)) (bi : Int) ti
    hst1 hfound hadj2
  rw [h2]
  simp only
  have hbi1 : bi < (handleTileClick st (ti : Int)).board.length := by
    rw [hb1, length_swapNat]; exact hbi
  have hti1 : ti < (handleTileClick st (ti : Int)).board.length := by
    rw [hb1, length_swapNat]; exact htib
  rw [jsSwap_natCast _ bi ti hbi1 hti1, hb1]
  exact swapNat_cancel st.board ti bi htib hbi htne

/-! ### Evaluating the sample shuffle in chunks -/

theorem shuffleLoop_add (s : Nat) (rand : Nat → Nat) :
    ∀ (m n i : Nat) (p : BoardLayout × Int),
      shuffleLoop s rand (m + n) i p =
        shuffleLoop s rand n (i + m) (shuffleLoop s rand m i p) := by
  intro m
  induction m with
  | zero =>
    intro n i p
    rw [Nat.zero_add, Nat.add_zero]
    rfl
  | succ m ih =>
    intro n i p
    rw [show m + 1 + n = (m + n) + 1 from by omega]
    show shuffleLoop s rand (m + n) (i + 1) (shuffleStep s (rand i) p) = _
    rw [ih n (i + 1) (shuffleStep s (rand i) p)]
    rw [show i + 1 + m = i + (m + 1) from by omega]
    rfl

theorem sampleStep0 :
    shuffleStep 3 0 (solvedBoard 3, ((3 * 3 : Nat) : Int) - 1) = (sampleMid, 5) := by
  decide

theorem sampleStepA : shuffleStep 3 0 (sampleMid, 5) = (sampleShuffled, 2) := by
  decide

theorem sampleStepB : shuffleStep 3 0 (sampleShuffled, 2) = (sampleMid, 5) := by
  decide

theorem sampleLoop_pair : ∀ (k i : Nat),
    shuffleLoop 3 (fun _ => 0) (2 * k) i (sampleShuffled, 2) = (sampleShuffled, 2) := by
  intro k
  induction k with
  | zero => intro i; rfl
  | succ k ih =>
    intro i
    rw [show 2 * (k + 1) = 2 * k + 1 + 1 from by ring]
    show shuffleLoop 3 (fun _ => 0) (2 * k) (i + 1 + 1)
        (shuffleStep 3 0 (shuffleStep 3 0 (sampleShuffled, 2))) = _
    rw [sampleStepB, sampleStepA]
    exact ih (i + 1 + 1)

theorem sampleWalk_eval : shuffleWalk 3 (fun _ => 0) = (sampleShuffled, 2) := by
  show shuffleLoop 3 (fun _ => 0) (3 * 3 * 10) 0
      (solvedBoard 3, ((3 * 3 : Nat) : Int) - 1) = _
  show shuffleLoop 3 (fun _ => 0) 88 2
      (shuffleStep 3 0 (shuffleStep 3 0 (solvedBoard 3, ((3 * 3 : Nat) : Int) - 1))) = _
  rw [sampleStep0, sampleStepA, show (88 : Nat) = 2 * 44 from rfl]
  exact sampleLoop_pair 44 2

theorem sampleShuffle_eval : shuffleBoard 3 (fun _ => 0) 1 = some sampleShuffled := by
  have hfst : (shuffleWalk 3 (fun _ => 0)).1 = sampleShuffled := by
    rw [sampleWalk_eval]
  show (if isSolved (shuffleWalk 3 (fun _ => 0)).1 then
        shuffleBoard 3 (fun n => (fun _ : Nat => 0) (n + 3 * 3 * 10)) 0
      else some (shuffleWalk 3 (fun _ => 0)).1) = some sampleShuffled
  rw [hfst, if_neg (by decide : ¬isSolved sampleShuffled = true)]

/-! ### Claim theorems -/

/-- Claim C1: for every size in 3, 4, 5 and every stream of random choices,
a board returned by `shuffleBoard` is a permutation of the tiles `1..s*s-1`
together with the single empty marker (a permutation of the solved layout),
is not the solved layout, and is reachable from the solved layout by legal
slide moves. -/
theorem shuffleBoard_solvable_not_solved (s : Nat) (rand : Nat → Nat) (fuel : Nat)
    (b : BoardLayout) (hs : s = 3 ∨ s = 4 ∨ s = 5)
    (h : shuffleBoard s rand fuel = some b) :
    b.Perm (solvedBoard s) ∧ isSolved b = false ∧ b ≠ solvedBoard s ∧
      Relation.ReflTransGen (SlideStep s) (solvedBoard s) b := by
  have hs2 : 2 ≤ s := by rcases hs with rfl | rfl | rfl <;> omega
  obtain ⟨hperm, hfalse, hreach⟩ := shuffleBoard_some s rand fuel b hs2 h
  refine ⟨hperm, hfalse, ?_, hreach⟩
  intro he
  rw [he, isSolved_solvedBoard s (by omega)] at hfalse
  cases hfalse

theorem shuffleBoard_solvable_not_solved_witness :
    sampleShuffled.Perm (solvedBoard 3) ∧ isSolved sampleShuffled = false ∧
      sampleShuffled ≠ solvedBoard 3 ∧
      Relation.ReflTransGen (SlideStep 3) (solvedBoard 3) sampleShuffled :=
  shuffleBoard_solvable_not_solved 3 (fun _ => 0) 1 sampleShuffled (Or.inl rfl)
    sampleShuffle_eval

/-- Claim C2: `isSolved` returns true exactly on the solved layout
`[1, 2, ..., s*s-1, null]`. -/
theorem isSolved_iff_eq_solvedBoard (s : Nat) (b : BoardLayout) (hs : 0 < s)
    (hlen : b.length = s * s) : isSolved b = true ↔ b = solvedBoard s :=
  ⟨eq_solvedBoard_of_isSolved s b hs hlen, fun h => h ▸ isSolved_solvedBoard s hs⟩

theorem isSolved_iff_eq_solvedBoard_witness : isSolved (solvedBoard 3) = true :=
  (isSolved_iff_eq_solvedBoard 3 (solvedBoard 3) (by omega) (by decide)).mpr rfl

/-- Claim C3: while PLAYING, a click on a valid slot whose Manhattan distance
to the empty slot is not exactly 1 (including the empty slot itself) leaves
the session unchanged; at distance exactly 1 the two slot contents are
swapped and the move counter grows by one. -/
theorem tileClick_adjacency_spec (st : Session) (ti bi : Nat)
    (hst : st.status = GameStatus.PLAYING)
    (hb : indexOfNull st.board = some bi)
    (hlen : st.board.length = st.size * st.size)
    (hti : ti < st.size * st.size) :
    (Nat.dist (ti % st.size) (bi % st.size) + Nat.dist (ti / st.size) (bi / st.size) ≠ 1 →
      handleTileClick st (ti : Int) = st) ∧
    (Nat.dist (ti % st.size) (bi % st.size) + Nat.dist (ti / st.size) (bi / st.size) = 1 →
      (handleTileClick st (ti : Int)).board = swapNat st.board ti bi ∧
        (handleTileClick st (ti : Int)).moves = st.moves + 1 ∧
        (handleTileClick st (ti : Int)).status = st.status) := by
  have hcd := clickDist_natCast st.size ti bi
  constructor
  · intro hne
    exact handleTileClick_not_adjacent st _ bi hb (by rw [hcd]; exact hne)
  · intro heq
    have h1 := handleTileClick_adjacent st ((ti : Nat) : Int) bi hst hb
      (by rw [hcd]; exact heq)
    obtain ⟨hbi, _, _⟩ := indexOfNull_some _ _ hb
    refine ⟨?_, by rw [h1], by rw [h1]⟩
    rw [h1]
    simp only
    exact jsSwap_natCast st.board ti bi (by omega) hbi

theorem tileClick_adjacency_spec_witness :
    (handleTileClick samplePlaying ((4 : Nat) : Int)).board =
        swapNat samplePlaying.board 4 7 ∧
      (handleTileClick samplePlaying ((4 : Nat) : Int)).moves =
        samplePlaying.moves + 1 ∧
      (handleTileClick samplePlaying ((4 : Nat) : Int)).status =
        samplePlaying.status :=
  (tileClick_adjacency_spec samplePlaying 4 7 (by decide) (by decide) (by decide)
    (by decide)).2 (by decide)

/-- Claim C4: every board-producing or board-mutating operation preserves the
board invariant, stated as: the board stays a permutation of the solved
layout (one empty marker and each tile `1..s*s-1` exactly once).  The
tile-click case covers the slot indices the interface can deliver, which are
always in range. -/
theorem board_invariant_preserved :
    (∀ (s : Nat) (rand : Nat → Nat) (fuel : Nat) (b : BoardLayout), 2 ≤ s →
      shuffleBoard s rand fuel = some b → b.Perm (solvedBoard s)) ∧
    (∀ (st : Session) (ti : Nat), st.board.Perm (solvedBoard st.size) →
      ti < st.size * st.size →
      (handleTileClick st (ti : Int)).board.Perm (solvedBoard st.size)) ∧
    (∀ st : Session, (handleSolve st).board.Perm (solvedBoard st.size)) := by
  refine ⟨?_, ?_, ?_⟩
  · intro s rand fuel b hs h
    exact (shuffleBoard_some s rand fuel b hs h).1
  · intro st ti hperm hti
    have hlen : st.board.length = st.size * st.size := by
      rw [hperm.length_eq, length_solvedBoard]
    by_cases hst : st.status = GameStatus.PLAYING
    · cases hb : indexOfNull st.board with
      | none => rw [handleTileClick_no_null st _ hb]; exact hperm
      | some bi =>
        by_cases hd : clickDist st.size ((ti : Nat) : Int) bi = 1
        · rw [handleTileClick_adjacent st _ bi hst hb hd]
          simp only
          obtain ⟨hbi, _, _⟩ := indexOfNull_some _ _ hb
          rw [jsSwap_natCast st.board ti bi (by omega) hbi]
          exact (swapNat_perm _ _ _ (by omega) hbi).trans hperm
        · rw [handleTileClick_not_adjacent st _ bi hb hd]
          exact hperm
    · rw [handleTileClick_not_playing st _ hst]
      exact hperm
  · intro st
    exact List.Perm.refl _

theorem board_invariant_preserved_witness :
    sampleShuffled.Perm (solvedBoard 3) ∧
      (handleTileClick samplePlaying ((4 : Nat) : Int)).board.Perm
        (solvedBoard samplePlaying.size) ∧
      (handleSolve sampleSolveInput).board.Perm (solvedBoard sampleSolveInput.size) :=
  ⟨board_invariant_preserved.1 3 (fun _ => 0) 1 sampleShuffled (by omega)
      sampleShuffle_eval,
    board_invariant_preserved.2.1 samplePlaying 4 (by decide) (by decide),
    board_invariant_preserved.2.2 sampleSolveInput⟩

/-- Claim C5: the tick is inert outside PLAYING; from a fresh PLAYING session
each tick adds exactly one second while the status stays PLAYING, the tick
number `timeLimit = size * size * 10` switches the status to TIME_UP with the
time clamped to the limit, and in every reachable session state the elapsed
time never exceeds the limit. -/
theorem timer_spec :
    (∀ st : Session, st.status ≠ GameStatus.PLAYING → timerTick st = st) ∧
    (∀ st : Session, st.status = GameStatus.PLAYING → st.time = 0 → 0 < st.size →
      (∀ n, n < timeLimit st.size →
        (timerTick^[n] st).status = GameStatus.PLAYING ∧
          (timerTick^[n] st).time = n) ∧
      (timerTick^[timeLimit st.size] st).status = GameStatus.TIME_UP ∧
      (timerTick^[timeLimit st.size] st).time = timeLimit st.size) ∧
    (∀ st : Session, Reachable st → st.time ≤ timeLimit st.size) := by
  refine ⟨timerTick_not_playing, ?_, reachable_time_le⟩
  intro st hst h0 hsize
  have hpos : 0 < timeLimit st.size := by
    unfold timeLimit
    have := Nat.mul_pos hsize hsize
    omega
  refine ⟨?_, ?_, ?_⟩
  · intro n hn
    rw [timerTick_iterate_lt st hst h0 n hn]
    exact ⟨hst, rfl⟩
  · rw [timerTick_iterate_limit st hst h0 hpos]
  · rw [timerTick_iterate_limit st hst h0 hpos]

theorem timer_spec_witness :
    (timerTick^[timeLimit sampleTimer.size] sampleTimer).status =
        GameStatus.TIME_UP ∧
      initSession.time ≤ timeLimit initSession.size ∧
      timerTick initSession = initSession :=
  ⟨(timer_spec.2.1 sampleTimer rfl rfl (by decide)).2.1,
    timer_spec.2.2 initSession Reachable.init,
    timer_spec.1 initSession (by decide)⟩

/-- Claim C6: from any prior state, solving sets the board to the solved
layout `[1, ..., s*s-1, null]` and the status to SOLVED, leaving the move
counter (and the clock) untouched. -/
theorem handleSolve_spec (st : Session) :
    (handleSolve st).board = solvedBoard st.size ∧
      (handleSolve st).status = GameStatus.SOLVED ∧
      (handleSolve st).moves = st.moves ∧
      (handleSolve st).time = st.time ∧
      (0 < st.size → isSolved (handleSolve st).board = true) :=
  ⟨rfl, rfl, rfl, rfl, fun h => isSolved_solvedBoard st.size h⟩

theorem handleSolve_spec_witness :
    isSolved (handleSolve sampleSolveInput).board = true ∧
      (handleSolve sampleSolveInput).moves = sampleSolveInput.moves :=
  ⟨(handleSolve_spec sampleSolveInput).2.2.2.2 (by decide),
    (handleSolve_spec sampleSolveInput).2.2.1⟩

/-- Claim C7: the walk runs exactly `s * s * 10` iterations from the solved
start; each iteration from a valid blank index picks an in-bounds slot at
Manhattan distance one, obtained as `blank - s` (DOWN, row above exists),
`blank + s` (UP, row below exists), `blank - 1` (RIGHT, column left exists)
or `blank + 1` (LEFT, column right exists), and swaps the empty marker with
it; and every in-bounds orthogonal neighbour is selected by some random
choice, so the pick is uniform over exactly the enumerated directions. -/
theorem shuffle_walk_spec :
    (∀ (s : Nat) (rand : Nat → Nat), shuffleWalk s rand =
      shuffleLoop s rand (s * s * 10) 0 (solvedBoard s, ((s * s : Nat) : Int) - 1)) ∧
    (∀ (s c : Nat) (b : BoardLayout) (n : Nat), 2 ≤ s → n < s * s →
      b.length = s * s → ∃ t : Nat, t < s * s ∧
        shuffleStep s c (b, (n : Int)) = (swapNat b n t, (t : Int)) ∧
        Nat.dist (t % s) (n % s) + Nat.dist (t / s) (n / s) = 1 ∧
        ((t + s = n ∧ 0 < n / s) ∨ (t = n + s ∧ n / s < s - 1)
          ∨ (t + 1 = n ∧ 0 < n % s) ∨ (t = n + 1 ∧ n % s < s - 1))) ∧
    (∀ (s : Nat) (b : BoardLayout) (n u : Nat), 2 ≤ s → n < s * s → u < s * s →
      Nat.dist (u % s) (n % s) + Nat.dist (u / s) (n / s) = 1 →
      ∃ c, (shuffleStep s c (b, (n : Int))).2 = (u : Int)) :=
  ⟨fun _ _ => rfl,
    fun s c b n hs hn hlen => shuffleStep_char s c b n hs hn hlen,
    fun s b n u hs hn hu hadj => shuffleStep_surj s b n u hs hn hu hadj⟩

theorem shuffle_walk_spec_witness :
    (shuffleWalk 3 (fun _ => 0) =
      shuffleLoop 3 (fun _ => 0) (3 * 3 * 10) 0
        (solvedBoard 3, ((3 * 3 : Nat) : Int) - 1)) ∧
    (∃ t : Nat, t < 3 * 3 ∧
      shuffleStep 3 0 (solvedBoard 3, ((8 : Nat) : Int)) =
        (swapNat (solvedBoard 3) 8 t, (t : Int)) ∧
      Nat.dist (t % 3) (8 % 3) + Nat.dist (t / 3) (8 / 3) = 1 ∧
      ((t + 3 = 8 ∧ 0 < 8 / 3) ∨ (t = 8 + 3 ∧ 8 / 3 < 3 - 1)
        ∨ (t + 1 = 8 ∧ 0 < 8 % 3) ∨ (t = 8 + 1 ∧ 8 % 3 < 3 - 1))) ∧
    (∃ c, (shuffleStep 3 c (solvedBoard 3, ((8 : Nat) : Int))).2 = ((5 : Nat) : Int)) :=
  ⟨shuffle_walk_spec.1 3 (fun _ => 0),
    shuffle_walk_spec.2.1 3 0 (solvedBoard 3) 8 (by omega) (by omega) (by decide),
    shuffle_walk_spec.2.2 3 (solvedBoard 3) 8 5 (by omega) (by omega) (by omega)
      (by decide)⟩

/-- Claim C8 as stated is false: after a legal click the empty marker sits at
the clicked index, so a second click at the same index has distance 0 and is
ignored; here a legal click at slot 4 followed by another click at slot 4
does not restore the board. -/
theorem tileClick_same_index_not_involutive :
    samplePlaying.status = GameStatus.PLAYING ∧
      indexOfNull samplePlaying.board = some 7 ∧
      clickDist samplePlaying.size ((4 : Nat) : Int) 7 = 1 ∧
      (handleTileClick (handleTileClick samplePlaying ((4 : Nat) : Int))
          ((4 : Nat) : Int)).board ≠ samplePlaying.board := by
  refine ⟨by decide, by decide, by decide, by decide⟩

/-- Claim C8 (amended): on a board with a single empty marker, a legal click
is undone by clicking the slot the empty marker previously occupied: the
composite restores the original board. -/
theorem tileClick_undo_inverse (st : Session) (ti bi : Nat)
    (hst : st.status = GameStatus.PLAYING)
    (hb : indexOfNull st.board = some bi)
    (hcount : st.board.count TileValue.null = 1)
    (hlen : st.board.length = st.size * st.size)
    (hti : ti < st.size * st.size)
    (hadj : clickDist st.size (ti : Int) bi = 1) :
    (handleTileClick (handleTileClick st (ti : Int)) (bi : Int)).board = st.board :=
  tileClick_undo_aux st ti bi hst hb hcount hlen hti hadj

theorem tileClick_undo_inverse_witness :
    (handleTileClick (handleTileClick samplePlaying ((4 : Nat) : Int))
        ((7 : Nat) : Int)).board = samplePlaying.board :=
  tileClick_undo_inverse samplePlaying 4 7 (by decide) (by decide) (by decide)
    (by decide) (by decide) (by decide)

/-- Claim C9 as stated is false: the session below is reachable, the index 10
is out of range for its 3-by-3 board, yet the JS coordinates of slot 10 are
at Manhattan distance 1 from the empty slot 7, so the handler swaps with an
out-of-range read and the click is not a no-op. -/
theorem tileClick_out_of_range_mutates :
    Reachable samplePlaying ∧
      ((10 : Int) < 0 ∨ ((samplePlaying.size * samplePlaying.size : Nat) : Int) ≤ 10) ∧
      handleTileClick samplePlaying (10 : Int) ≠ samplePlaying := by
  refine ⟨?_, by decide, by decide⟩
  have h0 : Reachable initSession := Reachable.init
  have h1 : Reachable sampleStart :=
    Reachable.start initSession 3 sampleShuffled (fun _ => 0) 1 h0 rfl
      (Or.inl rfl) sampleShuffle_eval
  have h2 : Reachable (handleTileClick sampleStart ((1 : Nat) : Int)) :=
    Reachable.click sampleStart 1 h1 (by decide)
  have h3 : Reachable (handleTileClick
      (handleTileClick sampleStart ((1 : Nat) : Int)) ((4 : Nat) : Int)) :=
    Reachable.click _ 4 h2 (by decide)
  exact Reachable.click _ 7 h3 (by decide)

/-- Claim C9 (amended): an out-of-range tile click is a no-op whenever the
session is not PLAYING, or the board has no empty marker, or the JS-computed
Manhattan distance between the clicked index and the empty slot is not
exactly 1; the remaining case (distance exactly 1, possible for some indices
just past either end of the board) swaps with an out-of-range read and is
not a no-op. -/
theorem tileClick_out_of_range_noop (st : Session) (ti : Int)
    (_hoob : ti < 0 ∨ ((st.size * st.size : Nat) : Int) ≤ ti) :
    (st.status ≠ GameStatus.PLAYING → handleTileClick st ti = st) ∧
    (indexOfNull st.board = none → handleTileClick st ti = st) ∧
    (∀ bi, indexOfNull st.board = some bi → clickDist st.size ti bi ≠ 1 →
      handleTileClick st ti = st) :=
  ⟨handleTileClick_not_playing st ti, handleTileClick_no_null st ti,
    fun bi hb hd => handleTileClick_not_adjacent st ti bi hb hd⟩

theorem tileClick_out_of_range_noop_witness :
    handleTileClick samplePlaying (-5 : Int) = samplePlaying :=
  (tileClick_out_of_range_noop samplePlaying (-5) (Or.inl (by decide))).2.2 7
    (by decide) (by decide)

/-- Claim C10: on a board with no empty marker at all the lookup returns the
JS value -1, the guard fires, and the click leaves the whole session
unchanged. -/
theorem tileClick_missing_blank_noop (st : Session) (ti : Int)
    (h : TileValue.null ∉ st.board) : handleTileClick st ti = st :=
  handleTileClick_no_null st ti ((indexOfNull_eq_none st.board).mpr h)

theorem tileClick_missing_blank_noop_witness :
    handleTileClick sampleNoBlank (0 : Int) = sampleNoBlank :=
  tileClick_missing_blank_noop sampleNoBlank 0 (by decide)

end Gobot
